import Mathlib

/-!
Verification development for `src/phase2.hpp` (chiapos phase 2,
"backpropagation/compaction").

The C++ function `RunPhase2` walks the seven tables from index 7 down to 1:
for each table index 7..2 it performs two streaming passes (a liveness-marking
scan and a remap-and-emit scan), then compacts table 1 in a single pass.

We shallow-embed the program as follows:
- an on-disk entry is a list of bits (`Raw`), most-significant-bit first,
  mirroring the bit-packed layout read by `Util::SliceInt64FromBytes`;
- a table file is a `List Raw`; a liveness bitfield (`std::vector<bool>`) is a
  `List Bool`;
- the chunked read loops of `RunPhase2` are modelled by cutting the entry list
  into chunks of `read_buffer_size / entry_size` entries (the C++ read buffer
  always holds a whole number of entries);
- components of the repository that are not part of the given source
  (`bitfield_index.hpp`, `sort_manager.hpp`, `Util::SliceInt64FromBytes`,
  `Bits`, `EntrySizes`) are modelled from the specification; each such
  definition carries a doc comment starting with `Modelled from the spec:`.
-/

namespace Phase2

/-- An on-disk entry, as a list of bits, most-significant bit first. -/
abbrev Raw := List Bool

/-- Modelled from the spec: the bit-packed entry layout of §6 ("bit-packed,
most-significant-bit first"); this is the value of a most-significant-bit-first
bit string, the reading direction used by `Util::SliceInt64FromBytes`
(`util.hpp`, not part of the given source). -/
def bitsToNat (l : List Bool) : Nat :=
  l.foldl (fun a b => 2 * a + cond b 1 0) 0

/-- Modelled from the spec: encoding a field value as a fixed-width,
most-significant-bit-first bit string, as done by `Bits` (`bits.hpp`, not part
of the given source); §6: fields are written at their fixed bit widths. -/
def natToBits : Nat → Nat → List Bool
  | 0, _ => []
  | n + 1, v => natToBits n (v / 2) ++ [v % 2 == 1]

/-- Modelled from the spec: `Util::SliceInt64FromBytes(buf, start, len)`
(`util.hpp`, not part of the given source) extracts the `len`-bit field that
starts `start` bits into the entry, most-significant bit first (§6 layout). -/
def sliceNat (e : Raw) (start len : Nat) : Nat :=
  bitsToNat ((e.drop start).take len)

/-- Read of a `std::vector<bool>` bitfield; out-of-range reads (undefined
behaviour in C++) are modelled as `false`. -/
def bget (bf : List Bool) (i : Nat) : Bool := bf.getD i false

/-- Write of `true` into a `std::vector<bool>` bitfield; out-of-range writes
(undefined behaviour in C++) are modelled as a no-op. -/
def bset (bf : List Bool) (i : Nat) : List Bool := bf.set i true

/-- The all-`false` bitfield allocated at `phase2.hpp:75-76`. -/
def mkBitfield (n : Nat) : List Bool := List.replicate n false

/-- Modelled from the spec: `rank(p)` of the Compaction Rank Index (§3, §4.3,
`bitfield_index.hpp` is not part of the given source): the count of `true`
bits at indices `< p`. -/
def rank (bf : List Bool) (p : Nat) : Nat :=
  (bf.take p).countP id

/-- Modelled from the spec: `bitfield_index::lookup` (§4.3, not part of the
given source): `lookup(pos, offset) = (rank(pos), rank(pos+offset) - rank(pos))`. -/
def lookup (bf : List Bool) (pos offset : Nat) : Nat × Nat :=
  (rank bf pos, rank bf (pos + offset) - rank bf pos)

/-! ### Basic lemmas about the bit primitives -/

theorem length_natToBits (n v : Nat) : (natToBits n v).length = n := by
  induction n generalizing v with
  | zero => rfl
  | succ n ih => simp [natToBits, ih]

theorem bitsToNat_append_singleton (l : List Bool) (b : Bool) :
    bitsToNat (l ++ [b]) = 2 * bitsToNat l + cond b 1 0 := by
  simp [bitsToNat, List.foldl_append]

theorem bitsToNat_lt (l : List Bool) : bitsToNat l < 2 ^ l.length := by
  induction l using List.reverseRecOn with
  | nil => simp [bitsToNat]
  | append_singleton l b ih =>
      rw [bitsToNat_append_singleton]
      have : 2 ^ (l ++ [b]).length = 2 * 2 ^ l.length := by
        simp [List.length_append, pow_succ]; ring
      rw [this]
      cases b <;> simp <;> omega

theorem bitsToNat_natToBits (n v : Nat) :
    bitsToNat (natToBits n v) = v % 2 ^ n := by
  induction n generalizing v with
  | zero => simp [natToBits, bitsToNat, Nat.mod_one]
  | succ n ih =>
      rw [natToBits, bitsToNat_append_singleton, ih]
      have h2 : 2 ^ (n + 1) = 2 * 2 ^ n := by rw [pow_succ]; ring
      have hm : v % (2 * 2 ^ n) = v % 2 + 2 * (v / 2 % 2 ^ n) := by
        rw [Nat.mod_mul]
      rcases Nat.mod_two_eq_zero_or_one v with h | h <;>
        simp [h, h2, hm] <;> omega

theorem natToBits_bitsToNat (l : List Bool) :
    natToBits l.length (bitsToNat l) = l := by
  induction l using List.reverseRecOn with
  | nil => rfl
  | append_singleton l b ih =>
      rw [bitsToNat_append_singleton]
      have hlen : (l ++ [b]).length = l.length + 1 := by simp
      rw [hlen, natToBits]
      have hd : (2 * bitsToNat l + cond b 1 0) / 2 = bitsToNat l := by
        cases b <;> simp <;> omega
      have hm : (2 * bitsToNat l + cond b 1 0) % 2 = cond b 1 0 := by
        cases b <;> simp <;> omega
      rw [hd, hm, ih]
      cases b <;> simp

theorem sliceNat_lt (e : Raw) (s len : Nat) : sliceNat e s len < 2 ^ len := by
  have h1 : ((e.drop s).take len).length ≤ len := by
    simp [List.length_take]
  calc bitsToNat ((e.drop s).take len) < 2 ^ ((e.drop s).take len).length :=
        bitsToNat_lt _
    _ ≤ 2 ^ len := Nat.pow_le_pow_right (by omega) h1

theorem length_bset (bf : List Bool) (i : Nat) :
    (bset bf i).length = bf.length := by
  simp [bset]

theorem bget_bset_self (bf : List Bool) (i : Nat) (h : i < bf.length) :
    bget (bset bf i) i = true := by
  simp [bget, bset, List.getD, List.getElem?_set_self', h]

theorem bget_bset_ne (bf : List Bool) (i j : Nat) (h : i ≠ j) :
    bget (bset bf i) j = bget bf j := by
  simp [bget, bset, List.getD, List.getElem?_set_ne h]

theorem bget_true_lt (bf : List Bool) (i : Nat) (h : bget bf i = true) :
    i < bf.length := by
  by_contra hc
  have hd : bf.getD i false = false := List.getD_eq_default _ _ (by omega)
  rw [bget, hd] at h
  exact Bool.noConfusion h

theorem bget_replicate_true (n i : Nat) (h : i < n) :
    bget (List.replicate n true) i = true := by
  simp [bget, List.getD, List.getElem?_replicate, h]

theorem bget_replicate_false (n i : Nat) :
    bget (List.replicate n false) i = false := by
  by_cases h : i < n <;>
    simp [bget, List.getD, List.getElem?_replicate, h]

/-! ### Lemmas about `rank` -/

theorem rank_le_self (bf : List Bool) (p : Nat) : rank bf p ≤ p :=
  le_trans (List.countP_le_length _) (by simp [List.length_take])

theorem rank_succ_of_true (bf : List Bool) (a : Nat) (h : bget bf a = true) :
    rank bf (a + 1) = rank bf a + 1 := by
  have ha : a < bf.length := bget_true_lt bf a h
  have hget : bf.get ⟨a, ha⟩ = true := by
    have h1 : bf.getD a false = bf.get ⟨a, ha⟩ := by
      simp [List.getD, List.getElem?_eq_getElem ha]
    rw [bget, h1] at h
    exact h
  have htake : bf.take (a + 1) = bf.take a ++ [bf.get ⟨a, ha⟩] := by
    rw [← List.take_concat_get bf a ha, List.concat_eq_append]
    simp [List.get_eq_getElem]
  rw [rank, rank, htake, List.countP_append]
  simp [List.get_eq_getElem] at hget
  simp [hget]

theorem rank_add_le (bf : List Bool) (p q : Nat) :
    rank bf (p + q) ≤ rank bf p + q := by
  have hsplit : bf.take (p + q) = bf.take p ++ ((bf.drop p).take q) := by
    rw [List.take_add]
  rw [rank, hsplit, List.countP_append]
  have : ((bf.drop p).take q).countP id ≤ q :=
    le_trans (List.countP_le_length _) (by simp [List.length_take])
  rw [rank]
  omega

theorem rank_mono (bf : List Bool) {p q : Nat} (h : p ≤ q) :
    rank bf p ≤ rank bf q := by
  obtain ⟨d, rfl⟩ := Nat.exists_eq_add_of_le h
  have hsplit : bf.take (p + d) = bf.take p ++ ((bf.drop p).take d) := by
    rw [List.take_add]
  rw [rank, rank, hsplit, List.countP_append]
  omega

theorem rank_replicate_true (n p : Nat) :
    rank (List.replicate n true) p = min p n := by
  rw [rank, List.take_replicate]
  rw [List.countP_eq_length.mpr]
  · simp
  · intro a ha
    simp [List.eq_of_mem_replicate ha]

theorem rank_strict_of_true (bf : List Bool) {a b : Nat} (hab : a < b)
    (ha : bget bf a = true) : rank bf a < rank bf b := by
  have h1 : rank bf (a + 1) = rank bf a + 1 := rank_succ_of_true bf a ha
  have h2 : rank bf (a + 1) ≤ rank bf b := rank_mono bf (by omega)
  omega

/-! ### Field parsing (`phase2.hpp:105-118`, `phase2.hpp:177-189`)

For tables 2..6 the code reads `entry_pos = SliceInt64FromBytes(i, 0, pos_size)`
and `entry_offset = SliceInt64FromBytes(i, pos_size, kOffsetSize)`, with
`pos_size = k`. For table 7 it reads `f7` at bit 0 (width `k`), `pos` at bit
`k` (width `k`) and `offset` at bit `2k` (width `kOffsetSize`). Throughout the
development `k` is the difficulty parameter and `c` stands for `kOffsetSize`
(whose numeric value is defined outside the given source). -/

/-- Parse `pos` of a table 2..6 entry (`phase2.hpp:116`, `phase2.hpp:187`). -/
def parsePos (k : Nat) (e : Raw) : Nat := sliceNat e 0 k

/-- Parse `offset` of a table 2..6 entry (`phase2.hpp:117`, `phase2.hpp:188`). -/
def parseOffset (k c : Nat) (e : Raw) : Nat := sliceNat e k c

/-- Parse `f7` of a table 7 entry (`phase2.hpp:180`). -/
def parseF7 (k : Nat) (e : Raw) : Nat := sliceNat e 0 k

/-- Parse `pos` of a table 7 entry (`phase2.hpp:108`, `phase2.hpp:181`). -/
def parsePos7 (k : Nat) (e : Raw) : Nat := sliceNat e k k

/-- Parse `offset` of a table 7 entry (`phase2.hpp:109`, `phase2.hpp:182`). -/
def parseOffset7 (k c : Nat) (e : Raw) : Nat := sliceNat e (k + k) c

/-! ### Pass 1: the liveness-marking scan (`phase2.hpp:85-124`) -/

/-- Mark the two referenced positions of one kept table 2..6 entry
(`phase2.hpp:120-122`). -/
def scanStep (k c : Nat) (bf : List Bool) (e : Raw) : List Bool :=
  bset (bset bf (parsePos k e)) (parsePos k e + parseOffset k c e)

/-- Mark the two referenced positions of one table 7 entry
(`phase2.hpp:105-109`, `phase2.hpp:120-122`). -/
def scan7Step (k c : Nat) (bf : List Bool) (e : Raw) : List Bool :=
  bset (bset bf (parsePos7 k e)) (parsePos7 k e + parseOffset7 k c e)

/-- The first scan over a table 2..6 (`phase2.hpp:88-124`, `else` branch):
entries whose `current_bitfield` bit at `read_index` is false are dropped,
the rest mark `next_bitfield` at `pos` and `pos + offset`. `ri` is
`read_index`. -/
def scanAux (k c : Nat) (cur : List Bool) (es : List Raw) (ri : Nat)
    (bf : List Bool) : List Bool :=
  match es with
  | [] => bf
  | e :: rest =>
      if bget cur ri then scanAux k c cur rest (ri + 1) (scanStep k c bf e)
      else scanAux k c cur rest (ri + 1) bf

/-- The first scan over table 7 (`phase2.hpp:88-124`, `table_index == 7`
branch): nothing is dropped. -/
def scan7Aux (k c : Nat) (es : List Raw) (bf : List Bool) : List Bool :=
  es.foldl (scan7Step k c) bf

/-- The entries of a table that survive the `current_bitfield` test, in
original file order, starting the running index at `ri`. Both scans of
`RunPhase2` apply this test (`phase2.hpp:111` and `phase2.hpp:185`), and the
table 1 compaction loop applies it as well (`phase2.hpp:269`). -/
def keptEntries (cur : List Bool) (es : List Raw) (ri : Nat) : List Raw :=
  match es with
  | [] => []
  | e :: rest =>
      if bget cur ri then e :: keptEntries cur rest (ri + 1)
      else keptEntries cur rest (ri + 1)

/-! ### Pass 2: the remap-and-emit scan (`phase2.hpp:156-230`) -/

/-- The logical content of an entry emitted by pass 2 for tables 2..6
(`phase2.hpp:210-216`): the dense `sort_key` (`write_counter`), and the
remapped `pos` and `offset`. -/
structure NewEntry where
  sortKey : Nat
  pos : Nat
  offset : Nat
deriving DecidableEq, Repr

/-- The unpadded bit string of an emitted entry (`phase2.hpp:210-216`):
`Bits(write_counter, k+1) + Bits(entry_pos, pos_size) +
Bits(entry_offset, kOffsetSize)`. -/
def newEntryBits (k c : Nat) (ne : NewEntry) : Raw :=
  natToBits (k + 1) ne.sortKey ++ natToBits k ne.pos ++ natToBits c ne.offset

/-- The on-disk bits of an emitted entry, zero-padded to the table's fixed
width `w` bits (`phase2.hpp:221-224`). -/
def encodeEntry (k c w : Nat) (ne : NewEntry) : Raw :=
  newEntryBits k c ne ++ List.replicate (w - (newEntryBits k c ne).length) false

/-- The second scan over a table 2..6 (`phase2.hpp:159-230`, `else`
branches): drop entries failing the same `current_bitfield` test as pass 1,
remap `(pos, offset)` through the rank index over `next`, and stamp the
running `write_counter` as `sort_key`. `ri` is `read_index`, `wc` is
`write_counter`. -/
def pass2Aux (k c : Nat) (cur next : List Bool) (es : List Raw) (ri wc : Nat) :
    List NewEntry :=
  match es with
  | [] => []
  | e :: rest =>
      if bget cur ri then
        let r := lookup next (parsePos k e) (parseOffset k c e)
        ⟨wc, r.1, r.2⟩ :: pass2Aux k c cur next rest (ri + 1) (wc + 1)
      else pass2Aux k c cur next rest (ri + 1) wc

/-- Emission over an already-filtered list of survivors: each survivor is
stamped with the running `write_counter` and remapped. Pass 2 factors through
this function applied to `keptEntries` (see the refinement theorems). -/
def emitRun (k c : Nat) (next : List Bool) (kept : List Raw) (wc : Nat) :
    List NewEntry :=
  match kept with
  | [] => []
  | e :: rest =>
      let r := lookup next (parsePos k e) (parseOffset k c e)
      ⟨wc, r.1, r.2⟩ :: emitRun k c next rest (wc + 1)

/-- The in-place rewrite of one table 7 entry (`phase2.hpp:197-207`):
re-encode `{f7, new_pos, new_offset}` at the same fixed width `w` bits and
write it back at the entry's own file offset.

Modelled from the spec: the byte semantics of `Bits::ToBytes` (`bits.hpp`) is
not part of the given source; §4.4 and §6 specify that the entry is re-encoded
`f7(k) | pos(k) | offset(kOffsetSize)` zero-padded at the table's unchanged
fixed width. -/
def rewrite7Entry (k c w : Nat) (next : List Bool) (e : Raw) : Raw :=
  let f7 := parseF7 k e
  let r := lookup next (parsePos7 k e) (parseOffset7 k c e)
  let bits := natToBits k f7 ++ natToBits k r.1 ++ natToBits c r.2
  bits ++ List.replicate (w - bits.length) false

/-! ### The external sort stage (`phase2.hpp:140-150`, `phase2.hpp:226-243`) -/

/-- Comparison used by the sort stage: the sort key is the entry's bit
content after the leading `sort_key` field, i.e. lexicographically
`(pos, offset)` (all bits after that are zero padding). -/
def keyLe (a b : NewEntry) : Bool :=
  if a.pos < b.pos then true
  else if a.pos = b.pos then a.offset ≤ b.offset
  else false

/-- Insert into a sorted run, keeping `keyLe` order. -/
def insertSorted (a : NewEntry) : List NewEntry → List NewEntry
  | [] => [a]
  | b :: rest => if keyLe a b then a :: b :: rest else b :: insertSorted a rest

/-- Modelled from the spec: the External Sort Stage (`sort_manager.hpp`, not
part of the given source). Per §4.5 it buffers the emitted entries and yields
them back in ascending key order; the bucket-count parameters and the cache
budget affect only internal chunking and spill behaviour, not the returned
stream, so they are ignored here. -/
def sortRun (numBuckets logNumBuckets : Nat) (l : List NewEntry) :
    List NewEntry :=
  let _ := numBuckets
  let _ := logNumBuckets
  l.foldr insertSorted []

/-- The render loop (`phase2.hpp:239-245`): the sorted entries are written
contiguously from offset 0 at the table's fixed width `w` bits, and the file
is truncated after them. -/
def renderRun (k c w : Nat) (l : List NewEntry) : List Raw :=
  l.map (encodeEntry k c w)

/-! ### Table 1 compaction (`phase2.hpp:257-284`) -/

/-- The table 1 compaction loop: stream the entries, skip those whose
`current_bitfield` bit is false, write the rest contiguously from offset 0.
`rc` is `read_counter`. -/
def compact1Aux (bf : List Bool) (es : List Raw) (rc : Nat) : List Raw :=
  match es with
  | [] => []
  | e :: rest =>
      if bget bf rc then e :: compact1Aux bf rest (rc + 1)
      else compact1Aux bf rest (rc + 1)

/-! ### Chunked reading (`phase2.hpp:82`, `phase2.hpp:88-101`, `phase2.hpp:159-172`)

Both scans read the table in chunks of `read_buffer_size` bytes, where
`read_buffer_size = (memory_size / 2) - (memory_size / 2) % entry_size` is a
whole number of entries; each chunk holds `read_buffer_size / entry_size =
(memory_size / 2) / entry_size` entries (the final chunk may be shorter). We
model a chunk as the corresponding group of entries. -/

/-- Cut a list into chunks of `n` elements (final chunk may be shorter).
The fuel argument of the helper is an upper bound on the number of chunks. -/
def chunksOfAux (n : Nat) : Nat → List Raw → List (List Raw)
  | 0, _ => []
  | _ + 1, [] => []
  | fuel + 1, x :: xs => (x :: xs).take n :: chunksOfAux n fuel ((x :: xs).drop n)

/-- Cut a list into chunks of `n` elements. For `n = 0` (a degenerate memory
budget, on which the C++ read loop does not make progress) the fuel runs out. -/
def chunksOf (n : Nat) (l : List Raw) : List (List Raw) :=
  chunksOfAux n l.length l

/-- Pass 1 of a table 2..6 with chunked reads: `read_index` is threaded across
chunk boundaries (`phase2.hpp:85-124`). -/
def scanChunked (k c csize : Nat) (cur : List Bool) (es : List Raw)
    (bf : List Bool) : List Bool :=
  ((chunksOf csize es).foldl
    (fun acc ch => (scanAux k c cur ch acc.2 acc.1, acc.2 + ch.length))
    (bf, 0)).1

/-- Pass 1 of table 7 with chunked reads. -/
def scan7Chunked (k c csize : Nat) (es : List Raw) (bf : List Bool) :
    List Bool :=
  (chunksOf csize es).foldl (fun acc ch => scan7Aux k c ch acc) bf

/-- Pass 2 of a table 2..6 with chunked reads: both `read_index` and
`write_counter` are threaded across chunk boundaries (`phase2.hpp:156-230`). -/
def pass2Chunked (k c csize : Nat) (cur next : List Bool) (es : List Raw) :
    List NewEntry :=
  ((chunksOf csize es).foldl
    (fun acc ch =>
      let out := pass2Aux k c cur next ch acc.2.1 acc.2.2
      (acc.1 ++ out, acc.2.1 + ch.length, acc.2.2 + out.length))
    ([], 0, 0)).1

/-- Pass 2 of table 7 with chunked reads: every entry is rewritten in place at
its own offset, so the result is the concatenation of the per-chunk rewrites. -/
def rewrite7Chunked (k c w csize : Nat) (next : List Bool) (es : List Raw) :
    List Raw :=
  (chunksOf csize es).foldl
    (fun acc ch => acc ++ ch.map (rewrite7Entry k c w next)) []

/-! ### The driver (`RunPhase2`, `phase2.hpp:27-289`)

The seven table files and the returned `new_table_sizes` vector. The C++
function receives the entry counts in `table_sizes`; here a table's entry
count is the length of its entry list. `esz i` is
`EntrySizes::GetMaxEntrySize(k, i, false)` in bytes (computed outside the
given source), so table `i` has fixed width `8 * esz i` bits and the chunk
size for table `i` is `(memorySize / 2) / esz i` entries. -/

/-- The seven tables, as lists of raw entries. -/
structure Tables where
  t1 : List Raw
  t2 : List Raw
  t3 : List Raw
  t4 : List Raw
  t5 : List Raw
  t6 : List Raw
  t7 : List Raw
deriving DecidableEq, Repr

/-- The result of the phase: the rewritten tables and the
`new_table_sizes` vector (index 0 unused and left 0, `phase2.hpp:43`). -/
structure Phase2Out where
  tables : Tables
  sizes : List Nat
deriving DecidableEq, Repr

/-- The liveness set for table 6, built while scanning table 7
(`phase2.hpp:75-124`, iteration `table_index = 7`). -/
def bfOf6 (k c : Nat) (T : Tables) : List Bool :=
  scan7Aux k c T.t7 (mkBitfield T.t6.length)

/-- The liveness set for table 5 (iteration `table_index = 6`). -/
def bfOf5 (k c : Nat) (T : Tables) : List Bool :=
  scanAux k c (bfOf6 k c T) T.t6 0 (mkBitfield T.t5.length)

/-- The liveness set for table 4 (iteration `table_index = 5`). -/
def bfOf4 (k c : Nat) (T : Tables) : List Bool :=
  scanAux k c (bfOf5 k c T) T.t5 0 (mkBitfield T.t4.length)

/-- The liveness set for table 3 (iteration `table_index = 4`). -/
def bfOf3 (k c : Nat) (T : Tables) : List Bool :=
  scanAux k c (bfOf4 k c T) T.t4 0 (mkBitfield T.t3.length)

/-- The liveness set for table 2 (iteration `table_index = 3`). -/
def bfOf2 (k c : Nat) (T : Tables) : List Bool :=
  scanAux k c (bfOf3 k c T) T.t3 0 (mkBitfield T.t2.length)

/-- The liveness set for table 1 (iteration `table_index = 2`). -/
def bfOf1 (k c : Nat) (T : Tables) : List Bool :=
  scanAux k c (bfOf2 k c T) T.t2 0 (mkBitfield T.t1.length)

/-- The embedding of `RunPhase2` (`phase2.hpp:27-289`). Arguments mirror the
C++ parameters: `k`, `kOffsetSize` (`c`), the per-table entry byte size
`esz`, `memory_size`, `num_buckets`, `log_num_buckets`, and the seven input
tables. It returns the rewritten tables and the `new_table_sizes` vector
`[0, n1', n2', n3', n4', n5', n6', n7]`. -/
def runPhase2 (k c : Nat) (esz : Nat → Nat)
    (memorySize numBuckets logNumBuckets : Nat) (T : Tables) : Phase2Out :=
  let cs := fun i => (memorySize / 2) / esz i
  let w := fun i => 8 * esz i
  -- iteration table_index = 7: build the table 6 liveness set, rewrite
  -- table 7 in place (never pruned, never truncated)
  let bf6 := scan7Chunked k c (cs 7) T.t7 (mkBitfield T.t6.length)
  let t7 := rewrite7Chunked k c (w 7) (cs 7) bf6 T.t7
  -- iteration table_index = 6
  let bf5 := scanChunked k c (cs 6) bf6 T.t6 (mkBitfield T.t5.length)
  let p6 := pass2Chunked k c (cs 6) bf6 bf5 T.t6
  let t6 := renderRun k c (w 6) (sortRun numBuckets logNumBuckets p6)
  -- iteration table_index = 5
  let bf4 := scanChunked k c (cs 5) bf5 T.t5 (mkBitfield T.t4.length)
  let p5 := pass2Chunked k c (cs 5) bf5 bf4 T.t5
  let t5 := renderRun k c (w 5) (sortRun numBuckets logNumBuckets p5)
  -- iteration table_index = 4
  let bf3 := scanChunked k c (cs 4) bf4 T.t4 (mkBitfield T.t3.length)
  let p4 := pass2Chunked k c (cs 4) bf4 bf3 T.t4
  let t4 := renderRun k c (w 4) (sortRun numBuckets logNumBuckets p4)
  -- iteration table_index = 3
  let bf2 := scanChunked k c (cs 3) bf3 T.t3 (mkBitfield T.t2.length)
  let p3 := pass2Chunked k c (cs 3) bf3 bf2 T.t3
  let t3 := renderRun k c (w 3) (sortRun numBuckets logNumBuckets p3)
  -- iteration table_index = 2
  let bf1 := scanChunked k c (cs 2) bf2 T.t2 (mkBitfield T.t1.length)
  let p2 := pass2Chunked k c (cs 2) bf2 bf1 T.t2
  let t2 := renderRun k c (w 2) (sortRun numBuckets logNumBuckets p2)
  -- final compaction of table 1 (entry-at-a-time, phase2.hpp:257-284)
  let t1 := compact1Aux bf1 T.t1 0
  { tables := ⟨t1, t2, t3, t4, t5, t6, t7⟩,
    sizes := [0, t1.length, p2.length, p3.length, p4.length, p5.length,
              p6.length, T.t7.length] }

/-! ### Chunked reading is equivalent to entry-at-a-time reading -/

theorem flatten_chunksOfAux (n : Nat) (hn : 1 ≤ n) :
    ∀ (fuel : Nat) (l : List Raw), l.length ≤ fuel →
      (chunksOfAux n fuel l).flatten = l := by
  intro fuel
  induction fuel with
  | zero =>
      intro l hl
      have : l = [] := List.eq_nil_of_length_eq_zero (by omega)
      simp [this, chunksOfAux]
  | succ fuel ih =>
      intro l hl
      match l with
      | [] => simp [chunksOfAux]
      | x :: xs =>
          rw [chunksOfAux, List.flatten_cons, ih ((x :: xs).drop n) ?_,
            List.take_append_drop]
          have : ((x :: xs).drop n).length = (x :: xs).length - n := by
            simp [List.length_drop]
          simp at hl ⊢
          omega

theorem flatten_chunksOf (n : Nat) (l : List Raw) (hn : 1 ≤ n) :
    (chunksOf n l).flatten = l :=
  flatten_chunksOfAux n hn l.length l le_rfl

theorem scanAux_append (k c : Nat) (cur : List Bool) (a b : List Raw)
    (ri : Nat) (bf : List Bool) :
    scanAux k c cur (a ++ b) ri bf =
      scanAux k c cur b (ri + a.length) (scanAux k c cur a ri bf) := by
  induction a generalizing ri bf with
  | nil => simp [scanAux]
  | cons e rest ih =>
      by_cases h : bget cur ri = true <;>
        simp [scanAux, h, ih, Nat.add_assoc, Nat.add_comm 1 rest.length]

theorem pass2Aux_append (k c : Nat) (cur next : List Bool) (a b : List Raw)
    (ri wc : Nat) :
    pass2Aux k c cur next (a ++ b) ri wc =
      pass2Aux k c cur next a ri wc ++
        pass2Aux k c cur next b (ri + a.length)
          (wc + (pass2Aux k c cur next a ri wc).length) := by
  induction a generalizing ri wc with
  | nil => simp [pass2Aux]
  | cons e rest ih =>
      by_cases h : bget cur ri = true <;>
        simp [pass2Aux, h, ih, Nat.add_assoc, Nat.add_comm 1 rest.length,
          Nat.add_comm 1 (pass2Aux k c cur next rest (ri + 1) (wc + 1)).length]

theorem scan7Aux_append (k c : Nat) (a b : List Raw) (bf : List Bool) :
    scan7Aux k c (a ++ b) bf = scan7Aux k c b (scan7Aux k c a bf) := by
  simp [scan7Aux, List.foldl_append]

theorem scanChunked_go (k c : Nat) (cur : List Bool) (L : List (List Raw)) :
    ∀ (bf : List Bool) (ri : Nat),
      L.foldl (fun acc ch => (scanAux k c cur ch acc.2 acc.1, acc.2 + ch.length))
          (bf, ri) =
        (scanAux k c cur L.flatten ri bf, ri + L.flatten.length) := by
  induction L with
  | nil => intro bf ri; simp [scanAux]
  | cons ch rest ih =>
      intro bf ri
      simp only [List.foldl_cons, ih, List.flatten_cons, scanAux_append,
        List.length_append, Prod.mk.injEq]
      exact ⟨trivial, by omega⟩

theorem scanChunked_eq (k c csize : Nat) (cur : List Bool) (es : List Raw)
    (bf : List Bool) (h : 1 ≤ csize) :
    scanChunked k c csize cur es bf = scanAux k c cur es 0 bf := by
  rw [scanChunked, scanChunked_go, flatten_chunksOf csize es h]

theorem scan7Chunked_go (k c : Nat) (L : List (List Raw)) :
    ∀ (bf : List Bool),
      L.foldl (fun acc ch => scan7Aux k c ch acc) bf =
        scan7Aux k c L.flatten bf := by
  induction L with
  | nil => intro bf; simp [scan7Aux]
  | cons ch rest ih =>
      intro bf
      simp [List.flatten_cons, scan7Aux_append, ih]

theorem scan7Chunked_eq (k c csize : Nat) (es : List Raw) (bf : List Bool)
    (h : 1 ≤ csize) :
    scan7Chunked k c csize es bf = scan7Aux k c es bf := by
  rw [scan7Chunked, scan7Chunked_go, flatten_chunksOf csize es h]

theorem pass2Chunked_go (k c : Nat) (cur next : List Bool)
    (L : List (List Raw)) :
    ∀ (out : List NewEntry) (ri wc : Nat),
      L.foldl
          (fun acc ch =>
            let o := pass2Aux k c cur next ch acc.2.1 acc.2.2
            (acc.1 ++ o, acc.2.1 + ch.length, acc.2.2 + o.length))
          (out, ri, wc) =
        (out ++ pass2Aux k c cur next L.flatten ri wc, ri + L.flatten.length,
          wc + (pass2Aux k c cur next L.flatten ri wc).length) := by
  induction L with
  | nil => intro out ri wc; simp [pass2Aux]
  | cons ch rest ih =>
      intro out ri wc
      simp only [List.foldl_cons, ih, List.flatten_cons, pass2Aux_append,
        List.length_append, List.append_assoc, Prod.mk.injEq]
      exact ⟨trivial, by omega, by omega⟩

theorem pass2Chunked_eq (k c csize : Nat) (cur next : List Bool)
    (es : List Raw) (h : 1 ≤ csize) :
    pass2Chunked k c csize cur next es = pass2Aux k c cur next es 0 0 := by
  rw [pass2Chunked, pass2Chunked_go, flatten_chunksOf csize es h]
  simp

theorem rewrite7Chunked_go (k c w : Nat) (next : List Bool)
    (L : List (List Raw)) :
    ∀ (out : List Raw),
      L.foldl (fun acc ch => acc ++ ch.map (rewrite7Entry k c w next)) out =
        out ++ L.flatten.map (rewrite7Entry k c w next) := by
  induction L with
  | nil => intro out; simp
  | cons ch rest ih => intro out; simp [ih, List.flatten_cons]

theorem rewrite7Chunked_eq (k c w csize : Nat) (next : List Bool)
    (es : List Raw) (h : 1 ≤ csize) :
    rewrite7Chunked k c w csize next es = es.map (rewrite7Entry k c w next) := by
  rw [rewrite7Chunked, rewrite7Chunked_go, flatten_chunksOf csize es h]
  simp

/-! ### Both passes factor through the same survivor list -/

theorem scanAux_eq_foldl_kept (k c : Nat) (cur : List Bool) (es : List Raw) :
    ∀ (ri : Nat) (bf : List Bool),
      scanAux k c cur es ri bf =
        (keptEntries cur es ri).foldl (scanStep k c) bf := by
  induction es with
  | nil => intro ri bf; simp [scanAux, keptEntries]
  | cons e rest ih =>
      intro ri bf
      by_cases h : bget cur ri = true <;> simp [scanAux, keptEntries, h, ih]

theorem pass2Aux_eq_emitRun (k c : Nat) (cur next : List Bool)
    (es : List Raw) :
    ∀ (ri wc : Nat),
      pass2Aux k c cur next es ri wc =
        emitRun k c next (keptEntries cur es ri) wc := by
  induction es with
  | nil => intro ri wc; simp [pass2Aux, keptEntries, emitRun]
  | cons e rest ih =>
      intro ri wc
      by_cases h : bget cur ri = true <;>
        simp [pass2Aux, keptEntries, emitRun, h, ih]

theorem compact1Aux_eq_keptEntries (bf : List Bool) (es : List Raw) :
    ∀ (rc : Nat), compact1Aux bf es rc = keptEntries bf es rc := by
  induction es with
  | nil => intro rc; simp [compact1Aux, keptEntries]
  | cons e rest ih =>
      intro rc
      by_cases h : bget bf rc = true <;>
        simp [compact1Aux, keptEntries, h, ih]

theorem length_emitRun (k c : Nat) (next : List Bool) (kept : List Raw) :
    ∀ (wc : Nat), (emitRun k c next kept wc).length = kept.length := by
  induction kept with
  | nil => intro wc; simp [emitRun]
  | cons e rest ih => intro wc; simp [emitRun, ih]

theorem map_sortKey_emitRun (k c : Nat) (next : List Bool) (kept : List Raw) :
    ∀ (wc : Nat),
      (emitRun k c next kept wc).map NewEntry.sortKey =
        List.range' wc kept.length := by
  induction kept with
  | nil => intro wc; simp [emitRun]
  | cons e rest ih =>
      intro wc
      simp [emitRun, ih, List.range'_succ]

theorem length_keptEntries_le (cur : List Bool) (es : List Raw) :
    ∀ (ri : Nat), (keptEntries cur es ri).length ≤ es.length := by
  induction es with
  | nil => intro ri; simp [keptEntries]
  | cons e rest ih =>
      intro ri
      by_cases h : bget cur ri = true <;> simp [keptEntries, h]
      · exact ih (ri + 1)
      · exact Nat.le_succ_of_le (ih (ri + 1))

theorem keptEntries_sublist (cur : List Bool) (es : List Raw) :
    ∀ (ri : Nat), (keptEntries cur es ri).Sublist es := by
  induction es with
  | nil => intro ri; simp [keptEntries]
  | cons e rest ih =>
      intro ri
      by_cases h : bget cur ri = true <;> simp [keptEntries, h]
      · exact ih (ri + 1)
      · exact (ih (ri + 1)).cons e

theorem keptEntries_all_true (n : Nat) (es : List Raw) :
    ∀ (ri : Nat), ri + es.length ≤ n →
      keptEntries (List.replicate n true) es ri = es := by
  induction es with
  | nil => intro ri hr; simp [keptEntries]
  | cons e rest ih =>
      intro ri hr
      simp only [List.length_cons] at hr
      rw [keptEntries, bget_replicate_true n ri (by omega), if_pos rfl,
        ih (ri + 1) (by omega)]

theorem keptEntries_of_ge (cur : List Bool) (es : List Raw) :
    ∀ (ri : Nat), cur.length ≤ ri → keptEntries cur es ri = [] := by
  induction es with
  | nil => intro ri hr; simp [keptEntries]
  | cons e rest ih =>
      intro ri hr
      have hfalse : bget cur ri = false := by
        rw [bget]
        exact List.getD_eq_default _ _ hr
      rw [keptEntries, hfalse]
      simp [ih (ri + 1) (by omega)]

theorem length_keptEntries_countP (cur : List Bool) (es : List Raw) :
    ∀ (ri : Nat),
      (keptEntries cur es ri).length =
        ((cur.drop ri).take es.length).countP id := by
  induction es with
  | nil => intro ri; simp [keptEntries]
  | cons e rest ih =>
      intro ri
      by_cases hlt : ri < cur.length
      · have hdrop : cur.drop ri = cur.get ⟨ri, hlt⟩ :: cur.drop (ri + 1) :=
          List.drop_eq_getElem_cons hlt
        have hbget : bget cur ri = cur.get ⟨ri, hlt⟩ := by
          simp [bget, List.getD, List.getElem?_eq_getElem hlt,
            List.get_eq_getElem]
        rw [keptEntries, hdrop]
        simp only [List.length_cons, List.take_succ_cons, List.countP_cons]
        cases hc : cur.get ⟨ri, hlt⟩ with
        | true => rw [hbget, hc]; simp [ih (ri + 1)]
        | false => rw [hbget, hc]; simp [ih (ri + 1)]
      · have hnil : cur.drop ri = [] := List.drop_eq_nil_of_le (by omega)
        rw [keptEntries_of_ge cur (e :: rest) ri (by omega), hnil]
        simp

theorem length_scanStep (k c : Nat) (bf : List Bool) (e : Raw) :
    (scanStep k c bf e).length = bf.length := by
  simp [scanStep, length_bset]

theorem length_scanAux (k c : Nat) (cur : List Bool) (es : List Raw) :
    ∀ (ri : Nat) (bf : List Bool),
      (scanAux k c cur es ri bf).length = bf.length := by
  induction es with
  | nil => intro ri bf; simp [scanAux]
  | cons e rest ih =>
      intro ri bf
      by_cases h : bget cur ri = true <;>
        simp [scanAux, h, ih, length_scanStep]

theorem length_scan7Aux (k c : Nat) (es : List Raw) :
    ∀ (bf : List Bool), (scan7Aux k c es bf).length = bf.length := by
  induction es with
  | nil => intro bf; simp [scan7Aux]
  | cons e rest ih =>
      intro bf
      have : scan7Aux k c (e :: rest) bf = scan7Aux k c rest (scan7Step k c bf e) := by
        simp [scan7Aux]
      rw [this, ih]
      simp [scan7Step, length_bset]

theorem length_insertSorted (a : NewEntry) (l : List NewEntry) :
    (insertSorted a l).length = l.length + 1 := by
  induction l with
  | nil => simp [insertSorted]
  | cons b rest ih =>
      by_cases h : keyLe a b = true <;> simp [insertSorted, h, ih]

theorem length_sortRun (nb lnb : Nat) (l : List NewEntry) :
    (sortRun nb lnb l).length = l.length := by
  rw [sortRun]
  induction l with
  | nil => simp
  | cons a rest ih => simp [length_insertSorted, ih]

/-! ### Characterisation of the liveness-marking scan (pass 1) -/

theorem bget_scanStep (k c : Nat) (bf : List Bool) (e : Raw) (x : Nat)
    (hx : x < bf.length) :
    (bget (scanStep k c bf e) x = true ↔
      bget bf x = true ∨ parsePos k e = x ∨
        parsePos k e + parseOffset k c e = x) := by
  rw [scanStep]
  by_cases hq : parsePos k e + parseOffset k c e = x
  · subst hq
    rw [bget_bset_self]
    · simp
    · rw [length_bset]; exact hx
  · rw [bget_bset_ne _ _ _ hq]
    by_cases hp : parsePos k e = x
    · subst hp
      rw [bget_bset_self _ _ hx]
      simp
    · rw [bget_bset_ne _ _ _ hp]
      simp [hp, hq]

theorem scanAux_bget (k c : Nat) (cur : List Bool) (es : List Raw) :
    ∀ (ri : Nat) (bf : List Bool) (x : Nat), x < bf.length →
      (bget (scanAux k c cur es ri bf) x = true ↔
        bget bf x = true ∨
          ∃ j, j < es.length ∧ bget cur (ri + j) = true ∧
            (parsePos k (es.getD j []) = x ∨
             parsePos k (es.getD j []) + parseOffset k c (es.getD j []) = x)) := by
  induction es with
  | nil =>
      intro ri bf x hx
      simp [scanAux]
  | cons e rest ih =>
      intro ri bf x hx
      by_cases hcur : bget cur ri = true
      · rw [scanAux, if_pos hcur]
        rw [ih (ri + 1) (scanStep k c bf e) x (by rw [length_scanStep]; exact hx)]
        rw [bget_scanStep k c bf e x hx]
        constructor
        · rintro ((hbf | hp | hq) | ⟨j, hj, hcj, hP⟩)
          · exact Or.inl hbf
          · exact Or.inr ⟨0, by simp, by simpa using hcur, by simpa using Or.inl hp⟩
          · exact Or.inr ⟨0, by simp, by simpa using hcur, by simpa using Or.inr hq⟩
          · refine Or.inr ⟨j + 1, by simp only [List.length_cons]; omega, ?_, ?_⟩
            · have : ri + (j + 1) = ri + 1 + j := by omega
              rw [this]; exact hcj
            · simpa using hP
        · rintro (hbf | ⟨j, hj, hcj, hP⟩)
          · exact Or.inl (Or.inl hbf)
          · match j with
            | 0 =>
                simp only [List.getD_cons_zero] at hP
                rcases hP with hp | hq
                · exact Or.inl (Or.inr (Or.inl hp))
                · exact Or.inl (Or.inr (Or.inr hq))
            | j + 1 =>
                refine Or.inr ⟨j, by simp only [List.length_cons] at hj; omega, ?_, ?_⟩
                · have : ri + 1 + j = ri + (j + 1) := by omega
                  rw [this]; exact hcj
                · simpa using hP
      · rw [scanAux, if_neg hcur]
        rw [ih (ri + 1) bf x hx]
        constructor
        · rintro (hbf | ⟨j, hj, hcj, hP⟩)
          · exact Or.inl hbf
          · refine Or.inr ⟨j + 1, by simp only [List.length_cons]; omega, ?_, ?_⟩
            · have : ri + (j + 1) = ri + 1 + j := by omega
              rw [this]; exact hcj
            · simpa using hP
        · rintro (hbf | ⟨j, hj, hcj, hP⟩)
          · exact Or.inl hbf
          · match j with
            | 0 =>
                rw [Nat.add_zero] at hcj
                exact absurd hcj hcur
            | j + 1 =>
                refine Or.inr ⟨j, by simp only [List.length_cons] at hj; omega, ?_, ?_⟩
                · have : ri + 1 + j = ri + (j + 1) := by omega
                  rw [this]; exact hcj
                · simpa using hP

theorem bget_scan7Step (k c : Nat) (bf : List Bool) (e : Raw) (x : Nat)
    (hx : x < bf.length) :
    (bget (scan7Step k c bf e) x = true ↔
      bget bf x = true ∨ parsePos7 k e = x ∨
        parsePos7 k e + parseOffset7 k c e = x) := by
  rw [scan7Step]
  by_cases hq : parsePos7 k e + parseOffset7 k c e = x
  · subst hq
    rw [bget_bset_self]
    · simp
    · rw [length_bset]; exact hx
  · rw [bget_bset_ne _ _ _ hq]
    by_cases hp : parsePos7 k e = x
    · subst hp
      rw [bget_bset_self _ _ hx]
      simp
    · rw [bget_bset_ne _ _ _ hp]
      simp [hp, hq]

theorem length_scan7Step (k c : Nat) (bf : List Bool) (e : Raw) :
    (scan7Step k c bf e).length = bf.length := by
  simp [scan7Step, length_bset]

theorem scan7Aux_bget (k c : Nat) (es : List Raw) :
    ∀ (bf : List Bool) (x : Nat), x < bf.length →
      (bget (scan7Aux k c es bf) x = true ↔
        bget bf x = true ∨
          ∃ j, j < es.length ∧
            (parsePos7 k (es.getD j []) = x ∨
             parsePos7 k (es.getD j []) + parseOffset7 k c (es.getD j []) = x)) := by
  induction es with
  | nil =>
      intro bf x hx
      simp [scan7Aux]
  | cons e rest ih =>
      intro bf x hx
      have hstep : scan7Aux k c (e :: rest) bf =
          scan7Aux k c rest (scan7Step k c bf e) := by
        simp [scan7Aux]
      rw [hstep, ih (scan7Step k c bf e) x (by rw [length_scan7Step]; exact hx),
        bget_scan7Step k c bf e x hx]
      constructor
      · rintro ((hbf | hp | hq) | ⟨j, hj, hP⟩)
        · exact Or.inl hbf
        · exact Or.inr ⟨0, by simp, by simpa using Or.inl hp⟩
        · exact Or.inr ⟨0, by simp, by simpa using Or.inr hq⟩
        · exact Or.inr ⟨j + 1, by simp only [List.length_cons]; omega, by simpa using hP⟩
      · rintro (hbf | ⟨j, hj, hP⟩)
        · exact Or.inl (Or.inl hbf)
        · match j with
          | 0 =>
              simp only [List.getD_cons_zero] at hP
              rcases hP with hp | hq
              · exact Or.inl (Or.inr (Or.inl hp))
              · exact Or.inl (Or.inr (Or.inr hq))
          | j + 1 =>
              exact Or.inr ⟨j, by simp only [List.length_cons] at hj; omega, by simpa using hP⟩

/-! ### Parsing the rewritten table 7 entries -/

theorem take_append_exact (A B : List Bool) : (A ++ B).take A.length = A := by
  induction A with
  | nil => simp
  | cons a rest ih => simp [ih]

theorem drop_append_shift (A B : List Bool) (s : Nat) :
    (A ++ B).drop (A.length + s) = B.drop s := by
  induction A with
  | nil => simp
  | cons a rest ih => simpa [Nat.succ_add] using ih

theorem sliceNat_append_zero (A B : List Bool) :
    sliceNat (A ++ B) 0 A.length = bitsToNat A := by
  rw [sliceNat, List.drop_zero, take_append_exact]

theorem sliceNat_append_shift (A B : List Bool) (s len : Nat) :
    sliceNat (A ++ B) (A.length + s) len = sliceNat B s len := by
  rw [sliceNat, sliceNat, drop_append_shift]

theorem lookup_fst_le (bf : List Bool) (pos off : Nat) :
    (lookup bf pos off).1 ≤ pos :=
  rank_le_self bf pos

theorem lookup_snd_le (bf : List Bool) (pos off : Nat) :
    (lookup bf pos off).2 ≤ off := by
  have h := rank_add_le bf pos off
  simp only [lookup]
  omega

theorem parseF7_rewrite7Entry (k c w : Nat) (next : List Bool) (e : Raw) :
    parseF7 k (rewrite7Entry k c w next e) = parseF7 k e := by
  rw [rewrite7Entry]
  have hk : (natToBits k (parseF7 k e)).length = k := length_natToBits _ _
  rw [List.append_assoc, List.append_assoc, parseF7]
  have := sliceNat_append_zero (natToBits k (parseF7 k e))
    (natToBits k (lookup next (parsePos7 k e) (parseOffset7 k c e)).1 ++
      (natToBits c (lookup next (parsePos7 k e) (parseOffset7 k c e)).2 ++
        List.replicate
          (w - (natToBits k (parseF7 k e) ++
            natToBits k (lookup next (parsePos7 k e) (parseOffset7 k c e)).1 ++
            natToBits c (lookup next (parsePos7 k e) (parseOffset7 k c e)).2).length)
          false))
  rw [hk] at this
  rw [this, bitsToNat_natToBits]
  exact Nat.mod_eq_of_lt (by simpa [parseF7] using sliceNat_lt e 0 k)

theorem parsePos7_rewrite7Entry (k c w : Nat) (next : List Bool) (e : Raw) :
    parsePos7 k (rewrite7Entry k c w next e) =
      (lookup next (parsePos7 k e) (parseOffset7 k c e)).1 := by
  rw [rewrite7Entry]
  set A := natToBits k (parseF7 k e) with hA
  set B := natToBits k (lookup next (parsePos7 k e) (parseOffset7 k c e)).1
    with hB
  set R := natToBits c (lookup next (parsePos7 k e) (parseOffset7 k c e)).2 ++
    List.replicate (w - (A ++ B ++
      natToBits c (lookup next (parsePos7 k e) (parseOffset7 k c e)).2).length)
      false with hR
  have hstack : A ++ B ++
      natToBits c (lookup next (parsePos7 k e) (parseOffset7 k c e)).2 ++
      List.replicate (w - (A ++ B ++
        natToBits c (lookup next (parsePos7 k e) (parseOffset7 k c e)).2).length)
        false = A ++ (B ++ R) := by
    simp [hR, List.append_assoc]
  rw [hstack, parsePos7]
  have hk : A.length = k := length_natToBits _ _
  have h1 : sliceNat (A ++ (B ++ R)) (A.length + 0) k = sliceNat (B ++ R) 0 k :=
    sliceNat_append_shift A (B ++ R) 0 k
  rw [hk, Nat.add_zero] at h1
  rw [h1]
  have hkB : (B ++ R).take k = B := by
    have : B.length = k := length_natToBits _ _
    rw [← this, take_append_exact]
  rw [sliceNat, List.drop_zero, hkB, hB, bitsToNat_natToBits]
  apply Nat.mod_eq_of_lt
  calc (lookup next (parsePos7 k e) (parseOffset7 k c e)).1
      ≤ parsePos7 k e := lookup_fst_le _ _ _
    _ < 2 ^ k := by simpa [parsePos7] using sliceNat_lt e k k

theorem parseOffset7_rewrite7Entry (k c w : Nat) (next : List Bool) (e : Raw) :
    parseOffset7 k c (rewrite7Entry k c w next e) =
      (lookup next (parsePos7 k e) (parseOffset7 k c e)).2 := by
  rw [rewrite7Entry]
  set A := natToBits k (parseF7 k e) with hA
  set B := natToBits k (lookup next (parsePos7 k e) (parseOffset7 k c e)).1
    with hB
  set C := natToBits c (lookup next (parsePos7 k e) (parseOffset7 k c e)).2
    with hC
  set P := List.replicate (w - (A ++ B ++ C).length) false with hP
  have hstack : A ++ B ++ C ++ P = A ++ (B ++ (C ++ P)) := by
    simp [List.append_assoc]
  rw [hstack, parseOffset7]
  have hkA : A.length = k := length_natToBits _ _
  have hkB : B.length = k := length_natToBits _ _
  have h1 : sliceNat (A ++ (B ++ (C ++ P))) (A.length + k) c =
      sliceNat (B ++ (C ++ P)) k c := sliceNat_append_shift A _ k c
  rw [hkA] at h1
  rw [h1]
  have h2 : sliceNat (B ++ (C ++ P)) (B.length + 0) c =
      sliceNat (C ++ P) 0 c := sliceNat_append_shift B _ 0 c
  rw [hkB, Nat.add_zero] at h2
  rw [h2]
  have hcC : (C ++ P).take c = C := by
    have : C.length = c := length_natToBits _ _
    rw [← this, take_append_exact]
  rw [sliceNat, List.drop_zero, hcC, hC, bitsToNat_natToBits]
  apply Nat.mod_eq_of_lt
  calc (lookup next (parsePos7 k e) (parseOffset7 k c e)).2
      ≤ parseOffset7 k c e := lookup_snd_le _ _ _
    _ < 2 ^ c := by simpa [parseOffset7] using sliceNat_lt e (k + k) c

/-! ### The bitfield indices written by pass 1 -/

/-- The sequence of `next_bitfield` indices written while scanning a table
2..6 (`phase2.hpp:120-122`): for each entry surviving the `current_bitfield`
test, first `pos`, then `pos + offset`. -/
def scanAccesses (k c : Nat) (cur : List Bool) (es : List Raw) (ri : Nat) :
    List Nat :=
  match es with
  | [] => []
  | e :: rest =>
      (if bget cur ri then
        [parsePos k e, parsePos k e + parseOffset k c e]
      else []) ++ scanAccesses k c cur rest (ri + 1)

/-- The sequence of `next_bitfield` indices written while scanning table 7
(`phase2.hpp:105-109`, `phase2.hpp:120-122`): every entry contributes `pos`
and `pos + offset`. -/
def scan7Accesses (k c : Nat) (es : List Raw) : List Nat :=
  match es with
  | [] => []
  | e :: rest =>
      parsePos7 k e :: (parsePos7 k e + parseOffset7 k c e) ::
        scan7Accesses k c rest

theorem mem_scanAccesses (k c : Nat) (cur : List Bool) (es : List Raw) :
    ∀ (ri : Nat) (a : Nat),
      a ∈ scanAccesses k c cur es ri ↔
        ∃ e ∈ keptEntries cur es ri,
          a = parsePos k e ∨ a = parsePos k e + parseOffset k c e := by
  induction es with
  | nil => intro ri a; simp [scanAccesses, keptEntries]
  | cons e rest ih =>
      intro ri a
      by_cases h : bget cur ri = true <;>
        simp [scanAccesses, keptEntries, h, ih, or_assoc]

theorem mem_scan7Accesses (k c : Nat) (es : List Raw) (a : Nat) :
    a ∈ scan7Accesses k c es ↔
      ∃ e ∈ es, a = parsePos7 k e ∨ a = parsePos7 k e + parseOffset7 k c e := by
  induction es with
  | nil => simp [scan7Accesses]
  | cons e rest ih => simp [scan7Accesses, ih, or_assoc]

/-! ### Behaviour on an all-true liveness set -/

theorem compact1Aux_all_true (n : Nat) (es : List Raw)
    (h : es.length ≤ n) :
    compact1Aux (List.replicate n true) es 0 = es := by
  rw [compact1Aux_eq_keptEntries, keptEntries_all_true n es 0 (by omega)]

theorem lookup_all_true (n pos off : Nat) (h : pos + off ≤ n) :
    lookup (List.replicate n true) pos off = (pos, off) := by
  rw [lookup, rank_replicate_true, rank_replicate_true]
  have h1 : min pos n = pos := by omega
  have h2 : min (pos + off) n = pos + off := by omega
  rw [h1, h2]
  simp

/-- A table 7 entry is well formed for width `w` (bits) and a table 6 of `n`
entries when its bits are exactly the layout `f7(k) | pos(k) | offset(c)`
zero-padded to `w`, and its two references stay inside table 6. -/
def wf7 (k c w n : Nat) (e : Raw) : Prop :=
  e = natToBits k (parseF7 k e) ++ natToBits k (parsePos7 k e) ++
      natToBits c (parseOffset7 k c e) ++
      List.replicate (w - (k + k + c)) false
  ∧ parsePos7 k e + parseOffset7 k c e ≤ n

instance (k c w n : Nat) (e : Raw) : Decidable (wf7 k c w n e) :=
  inferInstanceAs (Decidable
    (e = natToBits k (parseF7 k e) ++ natToBits k (parsePos7 k e) ++
        natToBits c (parseOffset7 k c e) ++
        List.replicate (w - (k + k + c)) false
      ∧ parsePos7 k e + parseOffset7 k c e ≤ n))

theorem rewrite7Entry_all_true (k c w n : Nat) (e : Raw)
    (h : wf7 k c w n e) :
    rewrite7Entry k c w (List.replicate n true) e = e := by
  obtain ⟨hshape, hb⟩ := h
  rw [rewrite7Entry, lookup_all_true n _ _ hb]
  have hlen : (natToBits k (parseF7 k e) ++ natToBits k (parsePos7 k e) ++
      natToBits c (parseOffset7 k c e)).length = k + k + c := by
    simp [length_natToBits]
    omega
  rw [hlen]
  exact hshape.symm

/-! ### The driver in entry-at-a-time form -/

/-- The driver `runPhase2` with the chunked reads replaced by their
entry-at-a-time equivalents (see `runPhase2_eq_plain`). -/
def runPhase2Plain (k c : Nat) (esz : Nat → Nat) (nb lnb : Nat) (T : Tables) :
    Phase2Out :=
  ⟨⟨compact1Aux (bfOf1 k c T) T.t1 0,
    renderRun k c (8 * esz 2)
      (sortRun nb lnb (pass2Aux k c (bfOf2 k c T) (bfOf1 k c T) T.t2 0 0)),
    renderRun k c (8 * esz 3)
      (sortRun nb lnb (pass2Aux k c (bfOf3 k c T) (bfOf2 k c T) T.t3 0 0)),
    renderRun k c (8 * esz 4)
      (sortRun nb lnb (pass2Aux k c (bfOf4 k c T) (bfOf3 k c T) T.t4 0 0)),
    renderRun k c (8 * esz 5)
      (sortRun nb lnb (pass2Aux k c (bfOf5 k c T) (bfOf4 k c T) T.t5 0 0)),
    renderRun k c (8 * esz 6)
      (sortRun nb lnb (pass2Aux k c (bfOf6 k c T) (bfOf5 k c T) T.t6 0 0)),
    T.t7.map (rewrite7Entry k c (8 * esz 7) (bfOf6 k c T))⟩,
   [0, (compact1Aux (bfOf1 k c T) T.t1 0).length,
    (pass2Aux k c (bfOf2 k c T) (bfOf1 k c T) T.t2 0 0).length,
    (pass2Aux k c (bfOf3 k c T) (bfOf2 k c T) T.t3 0 0).length,
    (pass2Aux k c (bfOf4 k c T) (bfOf3 k c T) T.t4 0 0).length,
    (pass2Aux k c (bfOf5 k c T) (bfOf4 k c T) T.t5 0 0).length,
    (pass2Aux k c (bfOf6 k c T) (bfOf5 k c T) T.t6 0 0).length,
    T.t7.length]⟩

theorem runPhase2_eq_plain (k c : Nat) (esz : Nat → Nat) (ms nb lnb : Nat)
    (T : Tables) (hcs : ∀ i, 2 ≤ i → i ≤ 7 → 1 ≤ ms / 2 / esz i) :
    runPhase2 k c esz ms nb lnb T = runPhase2Plain k c esz nb lnb T := by
  have c7 := hcs 7 (by omega) (by omega)
  have c6 := hcs 6 (by omega) (by omega)
  have c5 := hcs 5 (by omega) (by omega)
  have c4 := hcs 4 (by omega) (by omega)
  have c3 := hcs 3 (by omega) (by omega)
  have c2 := hcs 2 (by omega) (by omega)
  simp only [runPhase2, runPhase2Plain, bfOf6, bfOf5, bfOf4, bfOf3, bfOf2,
    bfOf1]
  rw [scan7Chunked_eq _ _ _ _ _ c7,
    rewrite7Chunked_eq _ _ _ _ _ _ c7,
    scanChunked_eq _ _ _ _ _ _ c6, pass2Chunked_eq _ _ _ _ _ _ c6,
    scanChunked_eq _ _ _ _ _ _ c5, pass2Chunked_eq _ _ _ _ _ _ c5,
    scanChunked_eq _ _ _ _ _ _ c4, pass2Chunked_eq _ _ _ _ _ _ c4,
    scanChunked_eq _ _ _ _ _ _ c3, pass2Chunked_eq _ _ _ _ _ _ c3,
    scanChunked_eq _ _ _ _ _ _ c2, pass2Chunked_eq _ _ _ _ _ _ c2]

theorem flatten_length_const (l : List Raw) (w : Nat)
    (h : ∀ e ∈ l, e.length = w) : l.flatten.length = l.length * w := by
  induction l with
  | nil => simp
  | cons e rest ih =>
      simp only [List.flatten_cons, List.length_append, List.length_cons]
      rw [h e (by simp), ih (fun x hx => h x (by simp [hx]))]
      ring

/-! ## Claim theorems -/

/-- C1: for a table index in 2..7, an index `x` of the next table's liveness
set is marked live by pass 1 if and only if some retained entry of the table
above (every entry for table 7; entries whose `current_bitfield` bit is true
for tables 2..6) references `x` via `pos` or `pos + offset`. The set is a
value of a single recursive pass (`scanAux` / `scan7Aux`) over the table and
is produced in full before pass 2 consumes it. -/
theorem claim1_liveness_marking (k c n : Nat) (cur : List Bool)
    (es : List Raw) (x : Nat) (hx : x < n) :
    (bget (scanAux k c cur es 0 (mkBitfield n)) x = true ↔
      ∃ j, j < es.length ∧ bget cur j = true ∧
        (parsePos k (es.getD j []) = x ∨
         parsePos k (es.getD j []) + parseOffset k c (es.getD j []) = x)) ∧
    (bget (scan7Aux k c es (mkBitfield n)) x = true ↔
      ∃ j, j < es.length ∧
        (parsePos7 k (es.getD j []) = x ∨
         parsePos7 k (es.getD j []) + parseOffset7 k c (es.getD j []) = x)) := by
  have hlen : x < (mkBitfield n).length := by simpa [mkBitfield] using hx
  constructor
  · rw [scanAux_bget k c cur es 0 (mkBitfield n) x hlen]
    simp [mkBitfield, bget_replicate_false]
  · rw [scan7Aux_bget k c es (mkBitfield n) x hlen]
    simp [mkBitfield, bget_replicate_false]

/-- Witness for C1 at a concrete input: `k = 1`, `c = 1`, a single two-bit
entry `[false, true]` (so `pos = 0`, `offset = 1` in the 2..6 layout), a
two-bit liveness set, and `x = 1`. -/
theorem claim1_witness :
    (1 : Nat) < 2 ∧
    ((bget (scanAux 1 1 [true] [[false, true]] 0 (mkBitfield 2)) 1 = true ↔
      ∃ j, j < [[false, true]].length ∧ bget [true] j = true ∧
        (parsePos 1 ([[false, true]].getD j []) = 1 ∨
         parsePos 1 ([[false, true]].getD j []) +
           parseOffset 1 1 ([[false, true]].getD j []) = 1)) ∧
    (bget (scan7Aux 1 1 [[false, true]] (mkBitfield 2)) 1 = true ↔
      ∃ j, j < [[false, true]].length ∧
        (parsePos7 1 ([[false, true]].getD j []) = 1 ∨
         parsePos7 1 ([[false, true]].getD j []) +
           parseOffset7 1 1 ([[false, true]].getD j []) = 1))) :=
  ⟨by decide, claim1_liveness_marking 1 1 2 [true] [[false, true]] 1 (by decide)⟩

/-- C7: the compacted position mapping is strictly order preserving on
retained positions: if `a < b` and both liveness bits are true, then
`rank a < rank b`, where `rank p` counts the true bits at indices below `p`. -/
theorem claim7_rank_order_preserving (bf : List Bool) (a b : Nat)
    (hab : a < b) (ha : bget bf a = true) (hb : bget bf b = true) :
    rank bf a < rank bf b :=
  rank_strict_of_true bf hab ha

/-- Witness for C7 on the liveness set `[true, false, true]` with the
retained positions 0 and 2. -/
theorem claim7_witness :
    (0 : Nat) < 2 ∧ bget [true, false, true] 0 = true ∧
    bget [true, false, true] 2 = true ∧
    rank [true, false, true] 0 < rank [true, false, true] 2 :=
  ⟨by decide, by decide, by decide,
    claim7_rank_order_preserving [true, false, true] 0 2 (by decide)
      (by decide) (by decide)⟩

/-- C8: the two passes over a table 2..6 traverse the entries in the same
order with the same running index and apply the same liveness test: both
factor through the same survivor list `keptEntries`. Pass 1 is the fold of
the marking step over exactly the kept entries, and pass 2 emits exactly the
kept entries (with the running write counter). -/
theorem claim8_two_pass_agreement (k c : Nat) (cur next : List Bool)
    (es : List Raw) (ri wc : Nat) (bf : List Bool) :
    scanAux k c cur es ri bf =
      (keptEntries cur es ri).foldl (scanStep k c) bf ∧
    pass2Aux k c cur next es ri wc =
      emitRun k c next (keptEntries cur es ri) wc :=
  ⟨scanAux_eq_foldl_kept k c cur es ri bf,
   pass2Aux_eq_emitRun k c cur next es ri wc⟩

/-- C9: under the precondition that the table's fixed width (in bits,
`8 * entry_size`) accommodates `(k+1) + k + kOffsetSize` bits, every entry
emitted by pass 2 satisfies the assertion of `phase2.hpp:218`: its encoded
bit size, `(k+1) + k + kOffsetSize`, is at most the fixed width. -/
theorem claim9_entry_fits (k c esz : Nat) (cur next : List Bool)
    (es : List Raw) (ne : NewEntry)
    (hmem : ne ∈ pass2Aux k c cur next es 0 0)
    (hw : (k + 1) + k + c ≤ 8 * esz) :
    (newEntryBits k c ne).length = (k + 1) + k + c ∧
    (newEntryBits k c ne).length ≤ 8 * esz := by
  have hlen : (newEntryBits k c ne).length = (k + 1) + k + c := by
    simp [newEntryBits, length_natToBits]
    omega
  exact ⟨hlen, by omega⟩

/-- Witness for C9: `k = 1`, `c = 1`, a 1-byte table width, and the single
entry emitted from a surviving all-zero entry. -/
theorem claim9_witness :
    (⟨0, 0, 0⟩ : NewEntry) ∈ pass2Aux 1 1 [true] [true] [[false, false]] 0 0 ∧
    (1 + 1) + 1 + 1 ≤ 8 * 1 ∧
    (newEntryBits 1 1 ⟨0, 0, 0⟩).length = (1 + 1) + 1 + 1 ∧
    (newEntryBits 1 1 ⟨0, 0, 0⟩).length ≤ 8 * 1 := by
  refine ⟨by decide, by decide, ?_⟩
  have h := claim9_entry_fits 1 1 1 [true] [true] [[false, false]] ⟨0, 0, 0⟩
    (by decide) (by decide)
  exact h

/-- C10: the liveness-set writes of pass 1 carry no bounds check. The
written indices (for each surviving entry, `pos` and `pos + offset`) all lie
below `n` exactly when every surviving entry satisfies `pos + offset < n`
(the unstated precondition), for tables 2..6 and for table 7; and the
`current_bitfield` reads at the running index are in bounds whenever the
bitfield is at least as long as the table. -/
theorem claim10_liveness_bounds (k c n : Nat) (cur : List Bool)
    (es es7 : List Raw) (hlen : es.length ≤ cur.length) :
    ((∀ a ∈ scanAccesses k c cur es 0, a < n) ↔
      (∀ e ∈ keptEntries cur es 0, parsePos k e + parseOffset k c e < n)) ∧
    ((∀ a ∈ scan7Accesses k c es7, a < n) ↔
      (∀ e ∈ es7, parsePos7 k e + parseOffset7 k c e < n)) ∧
    (∀ j, j < es.length → j < cur.length) := by
  refine ⟨?_, ?_, fun j hj => by omega⟩
  · constructor
    · intro h e he
      exact h _ ((mem_scanAccesses k c cur es 0 _).mpr ⟨e, he, Or.inr rfl⟩)
    · intro h a ha
      obtain ⟨e, he, hcase⟩ := (mem_scanAccesses k c cur es 0 a).mp ha
      have := h e he
      rcases hcase with rfl | rfl <;> omega
  · constructor
    · intro h e he
      exact h _ ((mem_scan7Accesses k c es7 _).mpr ⟨e, he, Or.inr rfl⟩)
    · intro h a ha
      obtain ⟨e, he, hcase⟩ := (mem_scan7Accesses k c es7 a).mp ha
      have := h e he
      rcases hcase with rfl | rfl <;> omega

/-- Witness for C10: one surviving entry referencing positions 0 and 1 of a
2-bit next liveness set. -/
theorem claim10_witness :
    [[false, true]].length ≤ [true].length ∧
    (((∀ a ∈ scanAccesses 1 1 [true] [[false, true]] 0, a < 2) ↔
      (∀ e ∈ keptEntries [true] [[false, true]] 0,
        parsePos 1 e + parseOffset 1 1 e < 2)) ∧
    ((∀ a ∈ scan7Accesses 1 1 [[false, true]], a < 2) ↔
      (∀ e ∈ [[false, true]],
        parsePos7 1 e + parseOffset7 1 1 e < 2)) ∧
    (∀ j, j < [[false, true]].length → j < [true].length)) :=
  ⟨by decide,
    claim10_liveness_bounds 1 1 2 [true] [[false, true]] [[false, true]]
      (by decide)⟩

/-- C3: for fixed logical inputs, the phase's result — the entry-count vector
and every table's content — is the same for any two memory budgets and bucket
parameters, provided each budget admits at least one entry per read chunk
(the C++ read loop does not progress otherwise). The parameters only choose
the chunking of the reads and the sort stage's internal spill behaviour. -/
theorem claim3_determinism (k c : Nat) (esz : Nat → Nat)
    (ms1 ms2 nb1 nb2 lnb1 lnb2 : Nat) (T : Tables)
    (h1 : ∀ i, 2 ≤ i → i ≤ 7 → 1 ≤ ms1 / 2 / esz i)
    (h2 : ∀ i, 2 ≤ i → i ≤ 7 → 1 ≤ ms2 / 2 / esz i) :
    runPhase2 k c esz ms1 nb1 lnb1 T = runPhase2 k c esz ms2 nb2 lnb2 T := by
  rw [runPhase2_eq_plain k c esz ms1 nb1 lnb1 T h1,
    runPhase2_eq_plain k c esz ms2 nb2 lnb2 T h2]
  simp only [runPhase2Plain, sortRun]

/-- Witness for C3: a one-entry-per-table input, memory budgets 16 and 64,
and different bucket parameters give identical results. -/
theorem claim3_witness :
    (∀ i, 2 ≤ i → i ≤ 7 → 1 ≤ 16 / 2 / (fun _ : Nat => 1) i) ∧
    (∀ i, 2 ≤ i → i ≤ 7 → 1 ≤ 64 / 2 / (fun _ : Nat => 1) i) ∧
    runPhase2 1 1 (fun _ => 1) 16 4 2
        ⟨[[]], [[]], [[]], [[]], [[]], [[]], [[]]⟩ =
      runPhase2 1 1 (fun _ => 1) 64 8 3
        ⟨[[]], [[]], [[]], [[]], [[]], [[]], [[]]⟩ :=
  ⟨fun i h1 h2 => by norm_num, fun i h1 h2 => by norm_num,
    claim3_determinism 1 1 (fun _ => 1) 16 64 4 8 2 3
      ⟨[[]], [[]], [[]], [[]], [[]], [[]], [[]]⟩
      (fun i h1 h2 => by norm_num) (fun i h1 h2 => by norm_num)⟩

/-- C4: table 7 is never pruned or truncated: the returned size slot 7 equals
the input entry count; the output table is the index-preserving in-place map
of the rewrite over the input entries (same file offsets, no reordering,
same length); and for each entry the rewritten `f7` equals the original while
the rewritten `(pos, offset)` pair is exactly the Rank Index lookup output
for the original pair. -/
theorem claim4_table7_frame (k c : Nat) (esz : Nat → Nat) (ms nb lnb : Nat)
    (T : Tables) (hcs : ∀ i, 2 ≤ i → i ≤ 7 → 1 ≤ ms / 2 / esz i) :
    (runPhase2 k c esz ms nb lnb T).sizes.getD 7 0 = T.t7.length ∧
    (runPhase2 k c esz ms nb lnb T).tables.t7 =
      T.t7.map (rewrite7Entry k c (8 * esz 7) (bfOf6 k c T)) ∧
    (runPhase2 k c esz ms nb lnb T).tables.t7.length = T.t7.length ∧
    (∀ (next : List Bool) (e : Raw),
      parseF7 k (rewrite7Entry k c (8 * esz 7) next e) = parseF7 k e ∧
      parsePos7 k (rewrite7Entry k c (8 * esz 7) next e) =
        (lookup next (parsePos7 k e) (parseOffset7 k c e)).1 ∧
      parseOffset7 k c (rewrite7Entry k c (8 * esz 7) next e) =
        (lookup next (parsePos7 k e) (parseOffset7 k c e)).2) := by
  rw [runPhase2_eq_plain k c esz ms nb lnb T hcs]
  refine ⟨by simp [runPhase2Plain], by simp [runPhase2Plain], ?_, ?_⟩
  · simp [runPhase2Plain]
  · intro next e
    exact ⟨parseF7_rewrite7Entry k c (8 * esz 7) next e,
      parsePos7_rewrite7Entry k c (8 * esz 7) next e,
      parseOffset7_rewrite7Entry k c (8 * esz 7) next e⟩

/-- Witness for C4 at a one-entry table 7 (all-zero byte) with `k = 1`,
`c = 1`, 1-byte entries and memory budget 16. -/
theorem claim4_witness :
    (∀ i, 2 ≤ i → i ≤ 7 → 1 ≤ 16 / 2 / (fun _ : Nat => 1) i) ∧
    (runPhase2 1 1 (fun _ => 1) 16 0 0
        ⟨[[]], [[]], [[]], [[]], [[]], [[]],
          [List.replicate 8 false]⟩).sizes.getD 7 0 =
      ([List.replicate 8 false] : List Raw).length :=
  ⟨fun i h1 h2 => by norm_num,
    (claim4_table7_frame 1 1 (fun _ => 1) 16 0 0
      ⟨[[]], [[]], [[]], [[]], [[]], [[]], [List.replicate 8 false]⟩
      (fun i h1 h2 => by norm_num)).1⟩

/-- C5: for each table index 2..6, pass 2 stamps the survivors with the dense
sort keys `0, 1, 2, ...` in emission order, the returned size slot equals the
survivor count of that table, and the survivor count never exceeds the
original entry count. -/
theorem claim5_dense_sort_keys (k c : Nat) (esz : Nat → Nat)
    (ms nb lnb : Nat) (T : Tables)
    (hcs : ∀ i, 2 ≤ i → i ≤ 7 → 1 ≤ ms / 2 / esz i) :
    (runPhase2 k c esz ms nb lnb T).sizes =
      [0, (keptEntries (bfOf1 k c T) T.t1 0).length,
       (keptEntries (bfOf2 k c T) T.t2 0).length,
       (keptEntries (bfOf3 k c T) T.t3 0).length,
       (keptEntries (bfOf4 k c T) T.t4 0).length,
       (keptEntries (bfOf5 k c T) T.t5 0).length,
       (keptEntries (bfOf6 k c T) T.t6 0).length,
       T.t7.length] ∧
    (∀ (cur next : List Bool) (es : List Raw),
      (pass2Aux k c cur next es 0 0).map NewEntry.sortKey =
        List.range (keptEntries cur es 0).length) ∧
    (∀ (cur : List Bool) (es : List Raw) (ri : Nat),
      (keptEntries cur es ri).length ≤ es.length) := by
  refine ⟨?_, ?_, fun cur es ri => length_keptEntries_le cur es ri⟩
  · rw [runPhase2_eq_plain k c esz ms nb lnb T hcs]
    simp [runPhase2Plain, pass2Aux_eq_emitRun, length_emitRun,
      compact1Aux_eq_keptEntries]
  · intro cur next es
    rw [pass2Aux_eq_emitRun, map_sortKey_emitRun, List.range_eq_range']

/-- Witness for C5: a two-entry table 2 where only the first entry survives. -/
theorem claim5_witness :
    (∀ i, 2 ≤ i → i ≤ 7 → 1 ≤ 16 / 2 / (fun _ : Nat => 1) i) ∧
    (pass2Aux 1 1 [true, false] [true] [[false, false], [false, false]] 0 0).map
        NewEntry.sortKey =
      List.range
        (keptEntries [true, false] [[false, false], [false, false]] 0).length :=
  ⟨fun i h1 h2 => by norm_num,
    (claim5_dense_sort_keys 1 1 (fun _ => 1) 16 0 0
      ⟨[[]], [[]], [[]], [[]], [[]], [[]], [[]]⟩
      (fun i h1 h2 => by norm_num)).2.1 [true, false] [true]
      [[false, false], [false, false]]⟩

/-- C6: table 1 compaction performs no remap and no sort: it is exactly the
in-order filter of the entries by the final liveness set (a sublist of the
input), its survivor count equals the population count of the liveness set,
and the file is truncated to survivor count times the fixed entry width. -/
theorem claim6_table1_compaction (w : Nat) (bf : List Bool) (es : List Raw)
    (hlen : bf.length = es.length) (hw : ∀ e ∈ es, e.length = w) :
    compact1Aux bf es 0 = keptEntries bf es 0 ∧
    (compact1Aux bf es 0).Sublist es ∧
    (compact1Aux bf es 0).length = bf.countP id ∧
    (compact1Aux bf es 0).flatten.length = (compact1Aux bf es 0).length * w := by
  have hkept : compact1Aux bf es 0 = keptEntries bf es 0 :=
    compact1Aux_eq_keptEntries bf es 0
  have hsub : (compact1Aux bf es 0).Sublist es := by
    rw [hkept]; exact keptEntries_sublist bf es 0
  have hcount : (compact1Aux bf es 0).length = bf.countP id := by
    rw [hkept, length_keptEntries_countP bf es 0]
    rw [List.drop_zero, ← hlen, List.take_length]
  have hbytes : (compact1Aux bf es 0).flatten.length =
      (compact1Aux bf es 0).length * w := by
    apply flatten_length_const
    intro e he
    exact hw e (hsub.mem he)
  exact ⟨hkept, hsub, hcount, hbytes⟩

/-- Witness for C6 on a two-entry table where only the second entry is live. -/
theorem claim6_witness :
    ([false, true] : List Bool).length =
      ([[true], [false]] : List Raw).length ∧
    (∀ e ∈ ([[true], [false]] : List Raw), e.length = 1) ∧
    (compact1Aux [false, true] [[true], [false]] 0 =
      keptEntries [false, true] [[true], [false]] 0 ∧
    (compact1Aux [false, true] [[true], [false]] 0).Sublist
      [[true], [false]] ∧
    (compact1Aux [false, true] [[true], [false]] 0).length =
      ([false, true] : List Bool).countP id ∧
    (compact1Aux [false, true] [[true], [false]] 0).flatten.length =
      (compact1Aux [false, true] [[true], [false]] 0).length * 1) :=
  ⟨by decide, by decide,
    claim6_table1_compaction 1 [false, true] [[true], [false]]
      (by decide) (by decide)⟩

/-! ## Claim C2: the phase is not byte-level idempotent -/

/-- A one-byte all-zero entry. -/
def zeroEntry : Raw := List.replicate 8 false

/-- A fully live input (`k = 2`, `c = 2`, 1-byte entries): every liveness set
computed by the run is all-true, yet the run re-encodes tables 2..6. Table 3
holds one entry with `pos = 0`, `offset = 1` (covering both table 2 entries);
table 2 holds entries with `pos = 0` and `pos = 1` (covering both table 1
entries); the tables above are single all-zero entries referencing position
0. -/
def cexTables : Tables :=
  ⟨[zeroEntry, zeroEntry],
   [zeroEntry, [false, true, false, false, false, false, false, false]],
   [[false, false, false, true, false, false, false, false]],
   [zeroEntry], [zeroEntry], [zeroEntry], [zeroEntry]⟩

/-- C2 counterexample: on `cexTables` every liveness set bit computed by the
run is live (the tables are fully compacted in the sense of the claim), yet
the run is not a no-op: the byte content of tables 2 and 3 changes, because
the emit pass prepends a `sort_key` field and re-slices `pos`/`offset` from
the positions they occupy in the input layout. -/
theorem claim2_counterexample :
    (bfOf6 2 2 cexTables = List.replicate 1 true ∧
     bfOf5 2 2 cexTables = List.replicate 1 true ∧
     bfOf4 2 2 cexTables = List.replicate 1 true ∧
     bfOf3 2 2 cexTables = List.replicate 1 true ∧
     bfOf2 2 2 cexTables = List.replicate 2 true ∧
     bfOf1 2 2 cexTables = List.replicate 2 true) ∧
    (runPhase2 2 2 (fun _ => 1) 16 0 0 cexTables).tables.t3 ≠ cexTables.t3 ∧
    (runPhase2 2 2 (fun _ => 1) 16 0 0 cexTables).tables.t2 ≠ cexTables.t2 := by
  decide

/-- C2 (amended): running the phase on tables whose liveness sets all come
out fully live is a no-op on the entry counts (every returned size equals the
input count) and on the byte content of table 1 and of table 7 (the latter
for well-formed entries), but not on tables 2..6, whose entries are
re-encoded into the `sort_key | pos | offset` output layout. -/
theorem claim2_amended_no_op (k c : Nat) (esz : Nat → Nat) (ms nb lnb : Nat)
    (T : Tables)
    (hcs : ∀ i, 2 ≤ i → i ≤ 7 → 1 ≤ ms / 2 / esz i)
    (h6 : bfOf6 k c T = List.replicate T.t6.length true)
    (h5 : bfOf5 k c T = List.replicate T.t5.length true)
    (h4 : bfOf4 k c T = List.replicate T.t4.length true)
    (h3 : bfOf3 k c T = List.replicate T.t3.length true)
    (h2 : bfOf2 k c T = List.replicate T.t2.length true)
    (h1 : bfOf1 k c T = List.replicate T.t1.length true)
    (hwf : ∀ e ∈ T.t7, wf7 k c (8 * esz 7) T.t6.length e) :
    (runPhase2 k c esz ms nb lnb T).sizes =
      [0, T.t1.length, T.t2.length, T.t3.length, T.t4.length, T.t5.length,
       T.t6.length, T.t7.length] ∧
    (runPhase2 k c esz ms nb lnb T).tables.t1 = T.t1 ∧
    (runPhase2 k c esz ms nb lnb T).tables.t7 = T.t7 := by
  rw [runPhase2_eq_plain k c esz ms nb lnb T hcs]
  simp only [runPhase2Plain]
  rw [h6, h5, h4, h3, h2, h1]
  have e2 : keptEntries (List.replicate T.t2.length true) T.t2 0 = T.t2 :=
    keptEntries_all_true _ _ 0 (by omega)
  have e3 : keptEntries (List.replicate T.t3.length true) T.t3 0 = T.t3 :=
    keptEntries_all_true _ _ 0 (by omega)
  have e4 : keptEntries (List.replicate T.t4.length true) T.t4 0 = T.t4 :=
    keptEntries_all_true _ _ 0 (by omega)
  have e5 : keptEntries (List.replicate T.t5.length true) T.t5 0 = T.t5 :=
    keptEntries_all_true _ _ 0 (by omega)
  have e6 : keptEntries (List.replicate T.t6.length true) T.t6 0 = T.t6 :=
    keptEntries_all_true _ _ 0 (by omega)
  have hc1 : compact1Aux (List.replicate T.t1.length true) T.t1 0 = T.t1 :=
    compact1Aux_all_true _ _ le_rfl
  have ht7 : T.t7.map
      (rewrite7Entry k c (8 * esz 7) (List.replicate T.t6.length true)) =
      T.t7 := by
    have hall : ∀ e ∈ T.t7,
        rewrite7Entry k c (8 * esz 7) (List.replicate T.t6.length true) e =
          id e := fun e he => rewrite7Entry_all_true k c (8 * esz 7)
            T.t6.length e (hwf e he)
    rw [List.map_congr_left hall, List.map_id]
  refine ⟨?_, hc1, ht7⟩
  simp only [pass2Aux_eq_emitRun, length_emitRun, e2, e3, e4, e5, e6, hc1]

/-- The all-zero fully compacted input used to witness the amended C2. -/
def wTables : Tables :=
  ⟨[zeroEntry], [zeroEntry], [zeroEntry], [zeroEntry], [zeroEntry],
   [zeroEntry], [zeroEntry]⟩

/-- Witness for the amended C2 on `wTables` with `k = 1`, `c = 1`. -/
theorem claim2_witness :
    (∀ i, 2 ≤ i → i ≤ 7 → 1 ≤ 16 / 2 / (fun _ : Nat => 1) i) ∧
    bfOf6 1 1 wTables = List.replicate wTables.t6.length true ∧
    bfOf5 1 1 wTables = List.replicate wTables.t5.length true ∧
    bfOf4 1 1 wTables = List.replicate wTables.t4.length true ∧
    bfOf3 1 1 wTables = List.replicate wTables.t3.length true ∧
    bfOf2 1 1 wTables = List.replicate wTables.t2.length true ∧
    bfOf1 1 1 wTables = List.replicate wTables.t1.length true ∧
    (∀ e ∈ wTables.t7, wf7 1 1 (8 * 1) wTables.t6.length e) ∧
    ((runPhase2 1 1 (fun _ => 1) 16 0 0 wTables).sizes =
      [0, wTables.t1.length, wTables.t2.length, wTables.t3.length,
       wTables.t4.length, wTables.t5.length, wTables.t6.length,
       wTables.t7.length] ∧
     (runPhase2 1 1 (fun _ => 1) 16 0 0 wTables).tables.t1 = wTables.t1 ∧
     (runPhase2 1 1 (fun _ => 1) 16 0 0 wTables).tables.t7 = wTables.t7) :=
  ⟨fun i h1 h2 => by norm_num, by decide, by decide, by decide, by decide,
   by decide, by decide, by decide,
   claim2_amended_no_op 1 1 (fun _ => 1) 16 0 0 wTables
     (fun i h1 h2 => by norm_num) (by decide) (by decide) (by decide)
     (by decide) (by decide) (by decide) (by decide)⟩

end Phase2
